import Mathlib

/-!
Verification of the distributed loss-computation engine of the jina-ai/openclip
repository, via a shallow embedding of the relevant source functions.

Embedding conventions:
* Tensors are embedded as lists: a feature matrix of shape (N, D) becomes a
  `List (List ℚ)` of N rows; `torch.cat` along dim 0 becomes `List.flatten`
  of the list of blocks; Python list slicing `xs[:k]`, `xs[k+1:]` becomes
  `List.take k`, `List.drop (k+1)`.
* `F.logsigmoid` (a library primitive external to the repository) is kept as
  an explicit function parameter `logsig : ℚ → ℚ`, so every definition stays
  executable; no theorem below depends on properties of the real logsigmoid.
* Worker ranks in the ring-exchange protocol are elements of `ZMod W`,
  matching the source's `(rank + 1) % world_size` / `(rank - 1 + world_size)
  % world_size` arithmetic exactly.
* Autograd bookkeeping is embedded by tagging each gathered row with a
  `GradTag` recording whether it carries a live gradient path or was
  gathered without gradient tracking.
-/

namespace OpenClip

/-! ### FeatureGatherer: `GatherFeatures.__call__` (src/open_clip/loss.py, lines 41-73)

Non-horovod branch.  With `gather_with_grad` the source concatenates
`torch.distributed.nn.all_gather(features)` (every block keeps a gradient
path).  Without it, the source all-gathers gradient-free copies into
`gathered_features`, overwrites `gathered_features[self.rank] = features`
when `local_loss` is not set, and concatenates.  `blocks k` denotes worker
k's local rows (all-gather is rank-ascending), `rank` this worker's rank. -/

inductive GradTag where
  | live
  | detached
deriving DecidableEq, Repr

def gatherFeaturesCall {α : Type} (local_loss gather_with_grad : Bool)
    (rank world_size : ℕ) (blocks : ℕ → List α) : List (α × GradTag) :=
  if gather_with_grad then
    ((List.range world_size).map
      (fun k => (blocks k).map (fun x => (x, GradTag.live)))).flatten
  else
    let gathered := (List.range world_size).map
      (fun k => (blocks k).map (fun x => (x, GradTag.detached)))
    let gathered :=
      if local_loss then gathered
      else gathered.set rank ((blocks rank).map (fun x => (x, GradTag.live)))
    gathered.flatten

/-! ### ClipLoss.get_ground_truth (src/open_clip/loss.py, lines 122-133)

`labels = torch.arange(num_logits)`, shifted by `num_logits * rank` when
`world_size > 1 and local_loss`.  The cache machinery (`prev_num_logits`,
the per-device `labels` dict, `cache_labels`) is embedded separately below
as a stateful step function. -/

def computeGroundTruth (world_size rank : ℕ) (local_loss : Bool)
    (num_logits : ℕ) : List ℤ :=
  if 1 < world_size ∧ local_loss then
    ((List.range num_logits).map (fun i : ℕ => (i : ℤ))).map
      (fun x => x + (num_logits : ℤ) * (rank : ℤ))
  else
    (List.range num_logits).map (fun i : ℕ => (i : ℤ))

/-- Cache state of a `ClipLoss` instance: `prev_num_logits` (a single scalar
shared across devices) and the per-device `labels` dict, embedded as an
association list from device id to the stored labels. -/
structure LabelCacheState where
  prevNumLogits : ℕ
  labelsDict : List (ℕ × List ℤ)
deriving DecidableEq, Repr

def lookupDevice (dict : List (ℕ × List ℤ)) (device : ℕ) : Option (List ℤ) :=
  match dict with
  | [] => none
  | (d, v) :: rest => if d = device then some v else lookupDevice rest device

def storeDevice (dict : List (ℕ × List ℤ)) (device : ℕ) (v : List ℤ) :
    List (ℕ × List ℤ) :=
  match dict with
  | [] => [(device, v)]
  | (d, w) :: rest =>
      if d = device then (d, v) :: rest else (d, w) :: storeDevice rest device v

/-- One call to `ClipLoss.get_ground_truth`: recompute when
`self.prev_num_logits != num_logits or device not in self.labels`, storing
into the cache when `cache_labels`; otherwise return `self.labels[device]`. -/
def getGroundTruthCached (cache_labels : Bool) (world_size rank : ℕ)
    (local_loss : Bool) (st : LabelCacheState) (device num_logits : ℕ) :
    List ℤ × LabelCacheState :=
  if st.prevNumLogits ≠ num_logits ∨ lookupDevice st.labelsDict device = none then
    let labels := computeGroundTruth world_size rank local_loss num_logits
    if cache_labels then
      (labels, ⟨num_logits, storeDevice st.labelsDict device labels⟩)
    else
      (labels, st)
  else
    ((lookupDevice st.labelsDict device).getD [], st)

/-- Run a sequence of `get_ground_truth` calls (each given as a
(device, num_logits) pair) on one loss instance, returning the outputs. -/
def runLabelCalls (cache_labels : Bool) (world_size rank : ℕ)
    (local_loss : Bool) (st : LabelCacheState) (calls : List (ℕ × ℕ)) :
    List (List ℤ) :=
  match calls with
  | [] => []
  | c :: rest =>
      let out := getGroundTruthCached cache_labels world_size rank local_loss
        st c.1 c.2
      out.1 :: runLabelCalls cache_labels world_size rank local_loss out.2 rest

/-! ### Pairwise sigmoid loss (src/training/loss/siglip.py, lines 140-160, and
the identical `SigLipLoss.get_ground_truth` / `_loss` in
src/open_clip/loss.py, lines 574-604)

`logits = logit_scale * left_features @ right_features.T`, optionally plus
`logit_bias`; `labels = -ones(N, N)`, plus `2 * eye(N)` when not
`negative_only`; `loss = -logsigmoid(labels * logits).sum() / N`.  Matrices
are lists of rows; matrix product entries are dot products of a left row
with a right row. -/

def dotQ (a b : List ℚ) : ℚ := (List.zipWith (fun x y => x * y) a b).sum

def matmulT (L R : List (List ℚ)) : List (List ℚ) :=
  (List.range L.length).map (fun i =>
    (List.range R.length).map (fun j => dotQ (L.getD i []) (R.getD j [])))

def smulMat (s : ℚ) (M : List (List ℚ)) : List (List ℚ) :=
  M.map (fun row => row.map (fun x => s * x))

def addConstMat (c : ℚ) (M : List (List ℚ)) : List (List ℚ) :=
  M.map (fun row => row.map (fun x => x + c))

def matAdd (A B : List (List ℚ)) : List (List ℚ) :=
  List.zipWith (List.zipWith (fun x y => x + y)) A B

def eyeMat (N : ℕ) : List (List ℚ) :=
  (List.range N).map (fun i =>
    (List.range N).map (fun j => if i = j then 1 else 0))

def negOnesMat (N : ℕ) : List (List ℚ) :=
  (List.range N).map (fun _ => (List.range N).map (fun _ => (-1 : ℚ)))

/-- `SigLIPLoss` logits: scale the similarity matrix, then add the bias when
one is given (`if logit_bias is not None: logits += logit_bias`). -/
def sigGetLogits (s : ℚ) (b : Option ℚ) (L R : List (List ℚ)) :
    List (List ℚ) :=
  match b with
  | none => smulMat s (matmulT L R)
  | some c => addConstMat c (smulMat s (matmulT L R))

/-- `SigLipLoss.get_ground_truth`: `labels = -ones`; when not
`negative_only`, `labels = 2 * eye + labels`. -/
def sigGroundTruth (N : ℕ) (negative_only : Bool) : List (List ℚ) :=
  if negative_only then negOnesMat N
  else matAdd (smulMat 2 (eyeMat N)) (negOnesMat N)

/-- `SigLIPLoss.sigmoid_loss`: `-logsigmoid(labels * logits).sum() / N`.
The library primitive `F.logsigmoid` is the parameter `logsig`. -/
def sigmoidLoss (logsig : ℚ → ℚ) (left right : List (List ℚ)) (s : ℚ)
    (b : Option ℚ) (negative_only : Bool) : ℚ :=
  -(((List.zipWith (List.zipWith (fun la lo => logsig (la * lo)))
      (sigGroundTruth left.length negative_only)
      (sigGetLogits s b left right)).map List.sum).sum) / (left.length : ℚ)

/-- `SigLIPLoss.forward` for `world_size = 1`: the ring-exchange loop is
skipped and the result is the local sigmoid loss with diagonal positives. -/
def siglipForwardLocal (logsig : ℚ → ℚ) (left right : List (List ℚ))
    (s : ℚ) (b : Option ℚ) : ℚ :=
  sigmoidLoss logsig left right s b false

/-- `features[..., :dim]`: keep the first `dim` embedding dimensions of
every row. -/
def sliceCols (dim : ℕ) (M : List (List ℚ)) : List (List ℚ) :=
  M.map (List.take dim)

/-- `MatryoshkaSigLIPLoss.forward` (src/training/loss/siglip.py, lines
253-270) at `world_size = 1`.  As in the source, the per-dimension slices
`_left_composites` / `_right_composites` are computed but the call
`super().forward(left_features, right_features, logit_scale, ...)` passes
the full-width tensors, and omits the call-site `logit_bias` so the inner
forward falls back to the constructor bias `selfBias`. -/
def matryoshkaForward (logsig : ℚ → ℚ) (dims : List ℕ) (weights : List ℚ)
    (left right : List (List ℚ)) (s : ℚ) (selfBias : Option ℚ) : ℚ :=
  (dims.zip weights).foldl
    (fun acc dw =>
      let leftComposites := sliceCols dw.1 left
      let rightComposites := sliceCols dw.1 right
      acc + siglipForwardLocal logsig left right s selfBias * dw.2)
    0

/-- Modelled from the spec (for comparison with `matryoshkaForward`): the
nested-dimension wrapper "recomputes the wrapped loss using only the first
`d` dimensions of every feature tensor, for each `d`, and returns the
weighted sum". -/
def matryoshkaForwardSpec (logsig : ℚ → ℚ) (dims : List ℕ)
    (weights : List ℚ) (left right : List (List ℚ)) (s : ℚ)
    (selfBias : Option ℚ) : ℚ :=
  (dims.zip weights).foldl
    (fun acc dw =>
      acc + siglipForwardLocal logsig (sliceCols dw.1 left)
        (sliceCols dw.1 right) s selfBias * dw.2)
    0

/-! ### Ring exchange protocol (src/open_clip/loss.py, lines 441-495 and
606-664; identical in src/training/loss/siglip.py, lines 8-106 and 162-227)

All `W` workers run `SigLipLoss.forward` simultaneously.  Worker `w` holds
`toLeft w` / `toRight w`, the tensors it is about to send to `(w - 1) % W`
and `(w + 1) % W`.  One synchronous round of `neighbour_exchange_bidir`
therefore delivers to worker `w` the pair
`(tensor_from_right, tensor_from_left) = (toLeft (w+1), toRight (w-1))`,
and the source then reassigns
`text_features_to_left, text_features_to_right = text_features_recv`.
Ranks live in `ZMod W`, matching the source's mod-`world_size` arithmetic. -/

structure RingState (W : ℕ) (α : Type) where
  toLeft : ZMod W → α
  toRight : ZMod W → α

/-- Global effect of one simultaneous `neighbour_exchange_bidir` round,
including the reassignment of the send buffers to the received tensors. -/
def exchangeBidirStep {W : ℕ} {α : Type} (s : RingState W α) :
    RingState W α :=
  ⟨fun w => s.toLeft (w + 1), fun w => s.toRight (w - 1)⟩

/-- Tensors received by worker `r` over `n` bidirectional rounds, in
evaluation order: each round contributes `tensor_from_right` then
`tensor_from_left` (the source iterates `for f in text_features_recv`). -/
def bidirRecvRounds {W : ℕ} {α : Type} :
    ℕ → RingState W α → ZMod W → List α
  | 0, _, _ => []
  | n + 1, s, r =>
      s.toLeft (r + 1) :: s.toRight (r - 1) ::
        bidirRecvRounds n (exchangeBidirStep s) r

/-- Global effect of one simultaneous unidirectional `neighbour_exchange`
round: worker `w` receives its left neighbour's `to_right` tensor and
reassigns `text_features_to_right` to it. -/
def exchangeUnidirStep {W : ℕ} {α : Type} (s : ZMod W → α) : ZMod W → α :=
  fun w => s (w - 1)

/-- Tensors received by worker `r` over `n` unidirectional rounds. -/
def unidirRecvRounds {W : ℕ} {α : Type} :
    ℕ → (ZMod W → α) → ZMod W → List α
  | 0, _, _ => []
  | n + 1, s, r => s (r - 1) :: unidirRecvRounds n (exchangeUnidirStep s) r

/-- `num_bidir, remainder = divmod(self.world_size - 1, 2)`. -/
def sigLipNumBidir (W : ℕ) : ℕ := (W - 1) / 2

def sigLipRemainder (W : ℕ) : ℕ := (W - 1) % 2

/-- The right-side feature tensors against which worker `r` evaluates
negative-only loss terms in `SigLipLoss.forward`, in evaluation order,
when every worker `w` starts with right-side features `f w`.  Bidirectional
mode: `num_bidir` two-sided rounds, then, when the remainder is non-zero,
one final single-sided exchange of the current `text_features_to_right`.
Unidirectional mode: `world_size - 1` single-sided rounds. -/
def sigLipNegRecv (W : ℕ) {α : Type} (bidir : Bool) (f : ZMod W → α)
    (r : ZMod W) : List α :=
  if bidir then
    bidirRecvRounds (sigLipNumBidir W) ⟨f, f⟩ r ++
      (if sigLipRemainder W ≠ 0 then
        [(exchangeBidirStep^[sigLipNumBidir W]
            (⟨f, f⟩ : RingState W α)).toRight (r - 1)]
      else [])
  else
    unidirRecvRounds (W - 1) f r

/-- Owners of the blocks worker `r` evaluates negative-only terms against:
run the protocol with each worker's payload being its own rank. -/
def sigLipNegSenders (W : ℕ) (bidir : Bool) (r : ZMod W) : List (ZMod W) :=
  sigLipNegRecv W bidir id r

/-- Ring distances (as naturals in [1, W-1]) from worker `r` to the owners
of the blocks it receives in bidirectional mode: distance `i + 1` (from the
left side) and `W - (i + 1)` (from the right side) for each two-sided round
`i`, plus `W - (num_bidir + 1)` for the single-sided remainder round.
Derived description used to establish the coverage theorem. -/
def natOffsetsBidir (W : ℕ) : List ℕ :=
  (List.range ((W - 1) / 2)).flatMap (fun i => [i + 1, W - (i + 1)]) ++
    (if (W - 1) % 2 ≠ 0 then [W - ((W - 1) / 2 + 1)] else [])

/-- Ring distances from worker `r` to the owners of the blocks it receives
in unidirectional mode: `W - (i + 1)` for round `i`. -/
def natOffsetsUnidir (W : ℕ) : List ℕ :=
  (List.range (W - 1)).map (fun i => W - (i + 1))

/-! ### AccumulationCoordinator: commit phase of `train_one_epoch`
(src/training/train.py, lines 404-582), for the base configuration with no
auxiliary-task losses active (`mtl_losses is None`, so the auxiliary cache
lists stay empty unless the data stream was inconsistent).

Per accumulation window of size `K = args.accum_freq`, after the cache
phase filled the `accum_*` buffers: if `len(accum_mtl_labels) not in
{0, K}` a warning is surfaced, every buffer is cleared and the window is
skipped (`continue`) with no backward call and no optimizer step.
Otherwise, for each microbatch `k`, the live features are substituted into
the cached sequence (`torch.cat(accumulated[:k] + [modelout[key]] +
accumulated[k+1:])`), the loss engine is invoked, its named values are
summed into `contrastive_loss`, and `backward` is called; after the loop
the optimizer steps once and the accumulated losses are divided by `K`. -/

inductive TrainEvent where
  | backward (k : ℕ)
  | optStep
  | warn
deriving DecidableEq, Repr

structure AccumState where
  accumImages : List ℕ
  accumTexts : List ℕ
  accumFeatures : List (List (List ℚ))
  accumMtlDatasets : List ℕ
  accumMtlBatches : List ℕ
  accumMtlLabels : List ℕ
  accumMtlFeatures : List ℕ
deriving DecidableEq, Repr

def AccumState.cleared : AccumState := ⟨[], [], [], [], [], [], []⟩

/-- The tensors handed to the loss engine for microbatch `k`: for each
cached feature key, the concatenation of the cached tensors with the live
tensor substituted at slot `k`.  `features` is indexed by key then by slot;
`live k keyIdx` is the freshly recomputed tensor of key `keyIdx` at slot
`k`. -/
def accumInputs (k : ℕ) (features : List (List (List ℚ)))
    (live : ℕ → ℕ → List ℚ) : List (List ℚ) :=
  features.mapIdx (fun keyIdx accumulated =>
    (accumulated.take k ++ [live k keyIdx] ++ accumulated.drop (k + 1)).flatten)

/-- First `n` iterations of the commit loop: the event trace (one backward
call per microbatch, in order) and the running `contrastive_loss` and
`loss` accumulators. -/
def commitIter (features : List (List (List ℚ))) (live : ℕ → ℕ → List ℚ)
    (engine : List (List ℚ) → List ℚ) : ℕ → List TrainEvent × ℚ × ℚ
  | 0 => ([], 0, 0)
  | k + 1 =>
      let prev := commitIter features live engine k
      let contrastive := (engine (accumInputs k features live)).sum
      (prev.1 ++ [TrainEvent.backward k],
       prev.2.1 + contrastive, prev.2.2 + contrastive)

/-- Window end: the inconsistency check, the commit loop, the single
optimizer step, the division of every reported named loss by `K`, and the
clearing of the accumulation buffers. -/
def commitWindow (K : ℕ) (st : AccumState) (live : ℕ → ℕ → List ℚ)
    (engine : List (List ℚ) → List ℚ) :
    List TrainEvent × List (String × ℚ) × AccumState :=
  if st.accumMtlLabels.length ≠ 0 ∧ st.accumMtlLabels.length ≠ K then
    ([TrainEvent.warn], [], AccumState.cleared)
  else
    let res := commitIter st.accumFeatures live engine K
    (res.1 ++ [TrainEvent.optStep],
     [("contrastive_loss", res.2.1 / (K : ℚ)),
      ("loss", res.2.2 / (K : ℚ)),
      ("mtl_loss", 0 / (K : ℚ))],
     AccumState.cleared)

/-! ## Helper lemmas -/

lemma gather_noGrad_eq {α : Type} (ll : Bool) (rank W : ℕ) (hr : rank < W)
    (blocks : ℕ → List α) :
    gatherFeaturesCall ll false rank W blocks =
      ((List.range W).map (fun k => (blocks k).map
        (fun x => (x, if k = rank ∧ ll = false then GradTag.live
                      else GradTag.detached)))).flatten := by
  unfold gatherFeaturesCall
  cases ll with
  | true => simp
  | false =>
      simp only [Bool.false_eq_true, if_false, if_true]
      congr 1
      apply List.ext_getElem
      · simp
      · intro j h1 h2
        have hj : j < W := by simpa using h2
        rw [List.getElem_set]
        by_cases hjr : rank = j
        · subst hjr
          simp
        · simp only [if_neg hjr]
          have hjr2 : ¬ (j = rank) := fun h => hjr h.symm
          simp [hjr2]

lemma map_fst_pair {α : Type} (l : List α) (t : GradTag) :
    List.map Prod.fst (l.map (fun x => (x, t))) = l := by
  induction l with
  | nil => rfl
  | cons a l ih => simp [ih]

lemma getD_map_range {α : Type} (W k : ℕ) (hk : k < W) (f : ℕ → List α) :
    ((List.range W).map f).getD k [] = f k := by
  rw [List.getD_eq_getElem?_getD, List.getElem?_map, List.getElem?_range hk]
  rfl

lemma gather_payload {α : Type} (ll gwg : Bool) (rank W : ℕ) (hr : rank < W)
    (blocks : ℕ → List α) :
    (gatherFeaturesCall ll gwg rank W blocks).map Prod.fst =
      ((List.range W).map blocks).flatten := by
  cases gwg with
  | true =>
      unfold gatherFeaturesCall
      rw [if_pos rfl, List.map_flatten, List.map_map]
      congr 1
      apply List.map_congr_left
      intro k _
      simp only [Function.comp_apply]
      exact map_fst_pair (blocks k) GradTag.live
  | false =>
      rw [gather_noGrad_eq ll rank W hr blocks]
      rw [List.map_flatten, List.map_map]
      congr 1
      apply List.map_congr_left
      intro k _
      simp only [Function.comp_apply]
      exact map_fst_pair (blocks k) _

lemma flatten_getD_block {α : Type} (L : List (List α)) (N : ℕ) (d : α) :
    ∀ (r i : ℕ), (∀ l ∈ L, l.length = N) → r < L.length → i < N →
    L.flatten.getD (i + r * N) d = (L.getD r []).getD i d := by
  induction L with
  | nil => intro r i _ hr _; simp at hr
  | cons l Ls ih =>
      intro r i hN hr hi
      have hl : l.length = N := hN l (by simp)
      cases r with
      | zero =>
          simp only [List.flatten_cons, Nat.zero_mul, Nat.add_zero,
            List.getD_cons_zero]
          rw [List.getD_eq_getElem?_getD, List.getElem?_append_left (by omega),
            ← List.getD_eq_getElem?_getD]
      | succ r' =>
          have harith : i + (r' + 1) * N = l.length + (i + r' * N) := by
            rw [hl]; ring
          simp only [List.flatten_cons, List.getD_cons_succ]
          rw [List.getD_eq_getElem?_getD, harith,
            List.getElem?_append_right (by omega)]
          have : l.length + (i + r' * N) - l.length = i + r' * N := by omega
          rw [this, ← List.getD_eq_getElem?_getD]
          exact ih r' i (fun x hx => hN x (by simp [hx])) (by simpa using hr) hi

lemma gather_payload_getD {α : Type} (ll gwg : Bool) (rank W N : ℕ)
    (hr : rank < W) (blocks : ℕ → List α)
    (hlen : ∀ k, (blocks k).length = N) (i : ℕ) (hi : i < N) (d : α) :
    ((gatherFeaturesCall ll gwg rank W blocks).map Prod.fst).getD
      (i + rank * N) d = (blocks rank).getD i d := by
  rw [gather_payload ll gwg rank W hr blocks]
  have h := flatten_getD_block ((List.range W).map blocks) N d rank i
    (by intro l hl
        rcases List.mem_map.mp hl with ⟨k, _, hk⟩
        rw [← hk]; exact hlen k)
    (by simpa using hr) hi
  rw [h, getD_map_range W rank hr blocks]

/-! ## Claim theorems -/

/-- C5 counterexample: the claim says the gradient-preserving gather variant
is applied exactly when the local-loss flag is set and that the gather mode
is a function of the local-loss flag alone.  At local_loss := false,
gather_with_grad := true, rank 0, world 2, one row per worker, the code
keeps every gathered row gradient-carrying (the preserve-gradient variant)
even though local-loss is unset, and the two runs below share
local_loss = false yet produce different gathers. -/
theorem gather_mode_cex :
    gatherFeaturesCall false true 0 2 (fun k => [k]) =
      [((0 : ℕ), GradTag.live), (1, GradTag.live)]
    ∧ gatherFeaturesCall false false 0 2 (fun k => [k]) =
      [((0 : ℕ), GradTag.live), (1, GradTag.detached)]
    ∧ gatherFeaturesCall false true 0 2 (fun k => [k]) ≠
      gatherFeaturesCall false false 0 2 (fun k => [k]) := by
  refine ⟨rfl, ?_, ?_⟩ <;> decide

/-- C5 amended: the gather variant is a function of the gather_with_grad
flag alone.  With gather_with_grad set, every worker's block in the result
carries a live gradient path; with it unset, blocks are gathered
gradient-free and exactly the block at this worker's rank is patched back
to the live local tensor, and only when the local-loss flag is also
unset. -/
theorem gather_mode_by_grad_flag {α : Type} (ll : Bool) (rank W : ℕ)
    (hr : rank < W) (blocks : ℕ → List α) :
    gatherFeaturesCall ll true rank W blocks =
      ((List.range W).map (fun k => (blocks k).map
        (fun x => (x, GradTag.live)))).flatten
    ∧ gatherFeaturesCall ll false rank W blocks =
      ((List.range W).map (fun k => (blocks k).map
        (fun x => (x, if k = rank ∧ ll = false then GradTag.live
                      else GradTag.detached)))).flatten := by
  exact ⟨by simp [gatherFeaturesCall], gather_noGrad_eq ll rank W hr blocks⟩

theorem gather_mode_by_grad_flag_witness :
    (0 : ℕ) < 2 ∧
    (gatherFeaturesCall true true 0 2 (fun k => [k]) =
      ((List.range 2).map (fun k => ([k] : List ℕ).map
        (fun x => (x, GradTag.live)))).flatten
    ∧ gatherFeaturesCall true false 0 2 (fun k => [k]) =
      ((List.range 2).map (fun k => ([k] : List ℕ).map
        (fun x => (x, if k = 0 ∧ true = false then GradTag.live
                      else GradTag.detached)))).flatten) :=
  ⟨by decide, gather_mode_by_grad_flag true 0 2 (by decide) (fun k => [k])⟩

/-- C6: with the detach-then-patch mode (gather_with_grad and local_loss
both unset), the gathered tensor is the rank-ascending concatenation of all
workers' blocks, exactly the block at this worker's rank is the original
gradient-carrying local tensor, every other block is the gathered
gradient-free value, and global row `i + k * N` is row `i` of worker `k`'s
block in original intra-batch order. -/
theorem gather_detach_patch_structure {α : Type} (rank W N : ℕ)
    (hW : 1 < W) (hr : rank < W) (blocks : ℕ → List α)
    (hlen : ∀ k, (blocks k).length = N) (d : α) :
    gatherFeaturesCall false false rank W blocks =
      ((List.range W).map (fun k => (blocks k).map
        (fun x => (x, if k = rank then GradTag.live
                      else GradTag.detached)))).flatten
    ∧ (gatherFeaturesCall false false rank W blocks).map Prod.fst =
      ((List.range W).map blocks).flatten
    ∧ ∀ k i, k < W → i < N →
        ((gatherFeaturesCall false false rank W blocks).map Prod.fst).getD
          (i + k * N) d = (blocks k).getD i d := by
  refine ⟨?_, gather_payload false false rank W hr blocks, ?_⟩
  · rw [gather_noGrad_eq false rank W hr blocks]
    simp
  · intro k i hk hi
    rw [gather_payload false false rank W hr blocks]
    have h := flatten_getD_block ((List.range W).map blocks) N d k i
      (by intro l hl
          rcases List.mem_map.mp hl with ⟨j, _, hj⟩
          rw [← hj]; exact hlen j)
      (by simpa using hk) hi
    rw [h, getD_map_range W k hk blocks]

theorem gather_detach_patch_structure_witness :
    (1 : ℕ) < 2 ∧ (0 : ℕ) < 2 ∧ (∀ k : ℕ, ([10 * k] : List ℕ).length = 1) ∧
    (gatherFeaturesCall false false 0 2 (fun k => [10 * k]) =
      ((List.range 2).map (fun k => ([10 * k] : List ℕ).map
        (fun x => (x, if k = 0 then GradTag.live
                      else GradTag.detached)))).flatten
    ∧ (gatherFeaturesCall false false 0 2 (fun k => [10 * k])).map Prod.fst =
      ((List.range 2).map (fun k => ([10 * k] : List ℕ))).flatten
    ∧ ∀ k i, k < 2 → i < 1 →
        ((gatherFeaturesCall false false 0 2
          (fun k => [10 * k])).map Prod.fst).getD (i + k * 1) 7 =
          ([10 * k] : List ℕ).getD i 7) :=
  ⟨by decide, by decide, fun k => rfl,
    gather_detach_patch_structure 0 2 1 (by decide) (by decide)
      (fun k => [10 * k]) (fun k => rfl) 7⟩

/-- C4: with local-loss mode enabled and world_size > 1, worker `rank`'s
ground-truth label for local row `i` (with num_logits = local batch size N)
is `i + rank * N`; with local-loss disabled or world_size = 1 the label for
row `i` is `i`; and column `i + rank * N` of the rank-ascending gathered
candidate tensor is worker `rank`'s own row `i`, the true positive pair. -/
theorem clip_ground_truth_labels {α : Type} (W rank N i : ℕ) (ll gwg : Bool)
    (blocks : ℕ → List α) (d : α) (hr : rank < W) (hi : i < N)
    (hlen : ∀ k, (blocks k).length = N) :
    (1 < W → (computeGroundTruth W rank true N)[i]? =
      some ((i : ℤ) + (rank : ℤ) * (N : ℤ)))
    ∧ (computeGroundTruth W rank false N)[i]? = some (i : ℤ)
    ∧ (computeGroundTruth 1 rank ll N)[i]? = some (i : ℤ)
    ∧ ((gatherFeaturesCall ll gwg rank W blocks).map Prod.fst).getD
        (i + rank * N) d = (blocks rank).getD i d := by
  refine ⟨?_, ?_, ?_, gather_payload_getD ll gwg rank W N hr blocks hlen i hi d⟩
  · intro hW
    simp only [computeGroundTruth, hW, true_and, if_true]
    rw [List.getElem?_map, List.getElem?_map, List.getElem?_range hi]
    simp [mul_comm]
  · simp only [computeGroundTruth, Bool.false_eq_true, and_false, if_false]
    rw [List.getElem?_map, List.getElem?_range hi]
    rfl
  · have : ¬ ((1 : ℕ) < 1 ∧ ll = true) := by simp
    simp only [computeGroundTruth, this, if_false]
    rw [List.getElem?_map, List.getElem?_range hi]
    rfl

theorem clip_ground_truth_labels_witness :
    (1 : ℕ) < 3 ∧ (0 : ℕ) < 2 ∧ (∀ k : ℕ, ([100 * k, 100 * k + 1] : List ℕ).length = 2) ∧
    ((1 < 3 → (computeGroundTruth 3 1 true 2)[0]? = some ((0 : ℤ) + 1 * 2))
    ∧ (computeGroundTruth 3 1 false 2)[0]? = some (0 : ℤ)
    ∧ (computeGroundTruth 1 1 true 2)[0]? = some (0 : ℤ)
    ∧ ((gatherFeaturesCall true false 1 3
        (fun k => [100 * k, 100 * k + 1])).map Prod.fst).getD (0 + 1 * 2) 7 =
        ([100 * 1, 100 * 1 + 1] : List ℕ).getD 0 7) :=
  ⟨by decide, by decide, fun k => rfl,
    clip_ground_truth_labels 3 1 2 0 true false
      (fun k => [100 * k, 100 * k + 1]) 7 (by decide) (by decide)
      (fun k => rfl)⟩

/-- C10: with label caching enabled, a call can return stale labels.  The
cache is keyed per device but `prev_num_logits` is one scalar shared across
devices, so after the call sequence (device 0, width 2), (device 1, width
2), (device 0, width 3), (device 1, width 3) the fourth call finds
`prev_num_logits = 3` and device 1 present in the dict, and returns the
width-2 labels stored earlier instead of recomputing — the uncached run
returns the correct width-3 labels. -/
theorem label_cache_returns_stale :
    runLabelCalls true 1 0 false ⟨0, []⟩ [(0, 2), (1, 2), (0, 3), (1, 3)] =
      [[0, 1], [0, 1], [0, 1, 2], [0, 1]]
    ∧ runLabelCalls false 1 0 false ⟨0, []⟩ [(0, 2), (1, 2), (0, 3), (1, 3)] =
      [[0, 1], [0, 1], [0, 1, 2], [0, 1, 2]]
    ∧ ([0, 1] : List ℤ) ≠ [0, 1, 2] := by
  refine ⟨?_, ?_, ?_⟩ <;> decide

/-- C3: `MatryoshkaSigLIPLoss.forward` computes the per-dimension slices
but hands the full-width features to the inner loss, so its result differs
from the spec-described weighted sum of prefix losses.  With dims = [1],
weight 1, 2x2 features [[1,2],[3,4]] on both sides, scale 1, no bias and
logsigmoid modelled by the identity, the code returns the full-width loss
-4 while the prefix computation gives -2. -/
theorem matryoshka_ignores_prefix_slices :
    matryoshkaForward id [1] [1] [[1, 2], [3, 4]] [[1, 2], [3, 4]] 1 none = -4
    ∧ matryoshkaForwardSpec id [1] [1] [[1, 2], [3, 4]] [[1, 2], [3, 4]] 1
        none = -2
    ∧ matryoshkaForward id [1] [1] [[1, 2], [3, 4]] [[1, 2], [3, 4]] 1 none ≠
      matryoshkaForwardSpec id [1] [1] [[1, 2], [3, 4]] [[1, 2], [3, 4]] 1
        none := by
  have h2 : List.range 2 = [0, 1] := rfl
  have ht : ∀ a b : ℚ, List.take 1 [a, b] = [a] := fun a b => rfl
  refine ⟨?_, ?_, ?_⟩ <;>
    norm_num [matryoshkaForward, matryoshkaForwardSpec, siglipForwardLocal,
      sigmoidLoss, sigGroundTruth, sigGetLogits, smulMat, addConstMat, matAdd,
      eyeMat, negOnesMat, matmulT, dotQ, sliceCols, h2, ht]

lemma listSum_map_range (f : ℕ → ℚ) (n : ℕ) :
    ((List.range n).map f).sum = ∑ i ∈ Finset.range n, f i := by
  induction n with
  | zero => simp
  | succ n ih =>
      rw [List.range_succ, List.map_append, List.sum_append,
        Finset.sum_range_succ, ih]
      simp

lemma zipWith_map_range {β γ δ : Type} (f : β → γ → δ) (g : ℕ → β)
    (h : ℕ → γ) (n : ℕ) :
    List.zipWith f ((List.range n).map g) ((List.range n).map h) =
      (List.range n).map (fun i => f (g i) (h i)) := by
  rw [List.zipWith_map, List.zipWith_same]

lemma sigGroundTruth_entry (N : ℕ) (negOnly : Bool) :
    sigGroundTruth N negOnly =
      (List.range N).map (fun i => (List.range N).map
        (fun j => if negOnly = false ∧ i = j then (1 : ℚ) else -1)) := by
  cases negOnly with
  | true =>
      unfold sigGroundTruth negOnesMat
      simp
  | false =>
      unfold sigGroundTruth negOnesMat eyeMat smulMat matAdd
      rw [if_neg (by simp), List.map_map, zipWith_map_range]
      apply List.map_congr_left
      intro i _
      simp only [Function.comp_apply]
      rw [List.map_map, zipWith_map_range]
      apply List.map_congr_left
      intro j _
      simp only [Function.comp_apply]
      by_cases hij : i = j <;> simp [hij] <;> norm_num

lemma sigGetLogits_entry (s : ℚ) (b : Option ℚ) (L R : List (List ℚ)) :
    sigGetLogits s b L R =
      (List.range L.length).map (fun i => (List.range R.length).map
        (fun j => s * dotQ (L.getD i []) (R.getD j []) + b.getD 0)) := by
  cases b with
  | none =>
      show smulMat s (matmulT L R) = _
      unfold smulMat matmulT
      rw [List.map_map]
      apply List.map_congr_left
      intro i _
      simp only [Function.comp_apply]
      rw [List.map_map]
      apply List.map_congr_left
      intro j _
      simp
  | some c =>
      show addConstMat c (smulMat s (matmulT L R)) = _
      unfold addConstMat smulMat matmulT
      rw [List.map_map, List.map_map]
      apply List.map_congr_left
      intro i _
      simp only [Function.comp_apply]
      rw [List.map_map, List.map_map]
      apply List.map_congr_left
      intro j _
      simp

/-- C7: the sigmoid loss equals
`-(sum over i, j of logsig(L i j * (s * (left_i . right_j) + b))) / N`, where
the label matrix `L` is `+1` on the diagonal and `-1` elsewhere when
negative_only is unset and `-1` everywhere when it is set, and the full
NxN sum is normalized by N only. -/
theorem sigmoid_loss_formula (logsig : ℚ → ℚ) (left right : List (List ℚ))
    (s : ℚ) (b : Option ℚ) (negOnly : Bool)
    (hNR : right.length = left.length) :
    sigmoidLoss logsig left right s b negOnly =
      -(∑ i ∈ Finset.range left.length, ∑ j ∈ Finset.range left.length,
        logsig ((if negOnly = false ∧ i = j then 1 else -1) *
          (s * dotQ (left.getD i []) (right.getD j []) + b.getD 0))) /
        (left.length : ℚ) := by
  unfold sigmoidLoss
  rw [sigGroundTruth_entry, sigGetLogits_entry, hNR, zipWith_map_range,
    List.map_map, listSum_map_range]
  congr 2
  apply Finset.sum_congr rfl
  intro i _
  simp only [Function.comp_apply]
  rw [zipWith_map_range, listSum_map_range]

theorem sigmoid_loss_formula_witness :
    ([[ (1 : ℚ), 2 ]] : List (List ℚ)).length = ([[ (3 : ℚ), 4 ]] : List (List ℚ)).length
    ∧ sigmoidLoss id [[(3 : ℚ), 4]] [[(1 : ℚ), 2]] 2 (some 5) true =
      -(∑ i ∈ Finset.range 1, ∑ j ∈ Finset.range 1,
        id ((if (true = false ∧ i = j : Prop) then (1 : ℚ) else -1) *
          (2 * dotQ (([[(3 : ℚ), 4]] : List (List ℚ)).getD i [])
            (([[(1 : ℚ), 2]] : List (List ℚ)).getD j []) + (some (5 : ℚ)).getD 0))) / 1 :=
  ⟨rfl, sigmoid_loss_formula id [[3, 4]] [[1, 2]] 2 (some 5) true rfl⟩

lemma substitute_take_drop {α : Type} (l : List α) (x d : α) (k : ℕ)
    (hk : k < l.length) :
    l.take k ++ [x] ++ l.drop (k + 1) =
      (List.range l.length).map (fun j => if j = k then x else l.getD j d) := by
  have hcons : l.take k ++ [x] ++ l.drop (k + 1) =
      l.take k ++ x :: l.drop (k + 1) := by simp
  rw [hcons, ← List.set_eq_take_cons_drop x hk]
  apply List.ext_getElem
  · simp
  · intro j h1 h2
    rw [List.getElem_set, List.getElem_map, List.getElem_range]
    have hjl : j < l.length := by simpa using h1
    by_cases hjk : j = k
    · simp [hjk]
    · rw [if_neg (fun h => hjk h.symm), if_neg hjk,
        List.getD_eq_getElem?_getD, List.getElem?_eq_getElem hjl]
      rfl

lemma commitIter_events (F : List (List (List ℚ))) (live : ℕ → ℕ → List ℚ)
    (engine : List (List ℚ) → List ℚ) (n : ℕ) :
    (commitIter F live engine n).1 = (List.range n).map TrainEvent.backward := by
  induction n with
  | zero => rfl
  | succ n ih =>
      rw [List.range_succ, List.map_append]
      simp only [commitIter]
      rw [ih]
      rfl

lemma commitIter_sums (F : List (List (List ℚ))) (live : ℕ → ℕ → List ℚ)
    (engine : List (List ℚ) → List ℚ) (n : ℕ) :
    (commitIter F live engine n).2.1 =
      ∑ k ∈ Finset.range n, (engine (accumInputs k F live)).sum
    ∧ (commitIter F live engine n).2.2 =
      ∑ k ∈ Finset.range n, (engine (accumInputs k F live)).sum := by
  induction n with
  | zero => exact ⟨rfl, rfl⟩
  | succ n ih =>
      rw [Finset.sum_range_succ]
      simp only [commitIter]
      rw [ih.1, ih.2]
      exact ⟨rfl, rfl⟩

/-- C2: in the commit phase of an accumulation window of size K, for each
microbatch k and cached feature key, the tensor handed to the loss engine
is the concatenation of cached slots 0..k-1, the live tensor at slot k,
and cached slots k+1..K-1; the event trace is one backward call per
microbatch in order followed by exactly one optimizer step; and every
reported named loss is the sum of the K per-microbatch values divided by
K. -/
theorem accum_commit_window (K : ℕ) (st : AccumState)
    (live : ℕ → ℕ → List ℚ) (engine : List (List ℚ) → List ℚ)
    (hK : 1 < K) (hlabels : st.accumMtlLabels = [])
    (hlen : ∀ l ∈ st.accumFeatures, l.length = K) :
    (∀ k κ, k < K → κ < st.accumFeatures.length →
      (accumInputs k st.accumFeatures live)[κ]? =
        some (((List.range K).map (fun j => if j = k then live k κ
          else (st.accumFeatures.getD κ []).getD j [])).flatten))
    ∧ (commitWindow K st live engine).1 =
        (List.range K).map TrainEvent.backward ++ [TrainEvent.optStep]
    ∧ (commitWindow K st live engine).2.1 =
        [("contrastive_loss",
            (∑ k ∈ Finset.range K,
              (engine (accumInputs k st.accumFeatures live)).sum) / (K : ℚ)),
         ("loss",
            (∑ k ∈ Finset.range K,
              (engine (accumInputs k st.accumFeatures live)).sum) / (K : ℚ)),
         ("mtl_loss", 0)]
    ∧ (commitWindow K st live engine).2.2 = AccumState.cleared := by
  have hcond : ¬ (st.accumMtlLabels.length ≠ 0 ∧ st.accumMtlLabels.length ≠ K) := by
    rw [hlabels]; simp
  refine ⟨?_, ?_, ?_, ?_⟩
  · intro k κ hk hκ
    unfold accumInputs
    rw [List.getElem?_mapIdx, List.getElem?_eq_getElem hκ]
    rw [Option.map_some']
    congr 1
    have hκl : st.accumFeatures[κ] = st.accumFeatures.getD κ [] := by
      rw [List.getD_eq_getElem?_getD, List.getElem?_eq_getElem hκ]
      rfl
    rw [hκl]
    congr 1
    have hlenκ : (st.accumFeatures.getD κ []).length = K :=
      hlen (st.accumFeatures.getD κ []) (hκl ▸ st.accumFeatures.getElem_mem hκ)
    rw [← hlenκ]
    exact substitute_take_drop (st.accumFeatures.getD κ []) (live k κ) [] k
      (by omega)
  · unfold commitWindow
    rw [if_neg hcond]
    show (commitIter st.accumFeatures live engine K).1 ++ [TrainEvent.optStep] = _
    rw [commitIter_events]
  · unfold commitWindow
    rw [if_neg hcond]
    show [("contrastive_loss", (commitIter st.accumFeatures live engine K).2.1 / (K : ℚ)),
      ("loss", (commitIter st.accumFeatures live engine K).2.2 / (K : ℚ)),
      ("mtl_loss", 0 / (K : ℚ))] = _
    rw [(commitIter_sums st.accumFeatures live engine K).1,
      (commitIter_sums st.accumFeatures live engine K).2]
    norm_num
  · unfold commitWindow
    rw [if_neg hcond]

theorem accum_commit_window_witness :
    (1 : ℕ) < 2 ∧
    (⟨[], [], [[[1], [2]]], [], [], [], []⟩ : AccumState).accumMtlLabels = [] ∧
    (∀ l ∈ (⟨[], [], [[[1], [2]]], [], [], [], []⟩ : AccumState).accumFeatures,
      l.length = 2) ∧
    ((∀ k κ, k < 2 → κ < (⟨[], [], [[[1], [2]]], [], [], [], []⟩ : AccumState).accumFeatures.length →
      (accumInputs k (⟨[], [], [[[1], [2]]], [], [], [], []⟩ : AccumState).accumFeatures
        (fun _ _ => [9]))[κ]? =
        some (((List.range 2).map (fun j => if j = k then (fun _ _ => ([9] : List ℚ)) k κ
          else (((⟨[], [], [[[1], [2]]], [], [], [], []⟩ : AccumState).accumFeatures.getD κ []).getD j []))).flatten))
    ∧ (commitWindow 2 ⟨[], [], [[[1], [2]]], [], [], [], []⟩ (fun _ _ => [9])
        (fun inp => [inp.flatten.sum])).1 =
        (List.range 2).map TrainEvent.backward ++ [TrainEvent.optStep]
    ∧ (commitWindow 2 ⟨[], [], [[[1], [2]]], [], [], [], []⟩ (fun _ _ => [9])
        (fun inp => [inp.flatten.sum])).2.1 =
        [("contrastive_loss",
            (∑ k ∈ Finset.range 2,
              ((fun inp : List (List ℚ) => [inp.flatten.sum])
                (accumInputs k [[[1], [2]]] (fun _ _ => [9]))).sum) / (2 : ℚ)),
         ("loss",
            (∑ k ∈ Finset.range 2,
              ((fun inp : List (List ℚ) => [inp.flatten.sum])
                (accumInputs k [[[1], [2]]] (fun _ _ => [9]))).sum) / (2 : ℚ)),
         ("mtl_loss", 0)]
    ∧ (commitWindow 2 ⟨[], [], [[[1], [2]]], [], [], [], []⟩ (fun _ _ => [9])
        (fun inp => [inp.flatten.sum])).2.2 = AccumState.cleared) :=
  ⟨by decide, rfl, by simp,
    accum_commit_window 2 ⟨[], [], [[[1], [2]]], [], [], [], []⟩
      (fun _ _ => [9]) (fun inp => [inp.flatten.sum]) (by decide) rfl (by simp)⟩

/-- C9: when at window end the number of cached auxiliary-task label
entries is neither 0 nor K, the coordinator surfaces a warning, clears
every cached buffer (images, texts, features and all auxiliary-task
buffers — `AccumState.cleared` is the state with every buffer empty), and
moves to the next window issuing no backward call and no optimizer step. -/
theorem accum_inconsistency_drops_window (K : ℕ) (st : AccumState)
    (live : ℕ → ℕ → List ℚ) (engine : List (List ℚ) → List ℚ)
    (h0 : st.accumMtlLabels.length ≠ 0) (hK : st.accumMtlLabels.length ≠ K) :
    commitWindow K st live engine =
      ([TrainEvent.warn], [], AccumState.cleared) := by
  unfold commitWindow
  rw [if_pos ⟨h0, hK⟩]

theorem accum_inconsistency_drops_window_witness :
    (⟨[], [], [[[1], [2]]], [], [], [7], []⟩ : AccumState).accumMtlLabels.length ≠ 0 ∧
    (⟨[], [], [[[1], [2]]], [], [], [7], []⟩ : AccumState).accumMtlLabels.length ≠ 2 ∧
    commitWindow 2 ⟨[], [], [[[1], [2]]], [], [], [7], []⟩ (fun _ _ => [9])
      (fun inp => [inp.flatten.sum]) =
      ([TrainEvent.warn], [], AccumState.cleared) :=
  ⟨by decide, by decide,
    accum_inconsistency_drops_window 2 ⟨[], [], [[[1], [2]]], [], [], [7], []⟩
      (fun _ _ => [9]) (fun inp => [inp.flatten.sum]) (by decide) (by decide)⟩

lemma exchangeBidirStep_iterate_toLeft {W : ℕ} {α : Type} (f : ZMod W → α) :
    ∀ (t : ℕ) (w : ZMod W),
      (exchangeBidirStep^[t] (⟨f, f⟩ : RingState W α)).toLeft w =
        f (w + (t : ZMod W)) := by
  intro t
  induction t with
  | zero => intro w; simp
  | succ t ih =>
      intro w
      rw [Function.iterate_succ_apply']
      show (exchangeBidirStep^[t] (⟨f, f⟩ : RingState W α)).toLeft (w + 1) = _
      rw [ih]
      congr 1
      push_cast
      ring

lemma exchangeBidirStep_iterate_toRight {W : ℕ} {α : Type} (f : ZMod W → α) :
    ∀ (t : ℕ) (w : ZMod W),
      (exchangeBidirStep^[t] (⟨f, f⟩ : RingState W α)).toRight w =
        f (w - (t : ZMod W)) := by
  intro t
  induction t with
  | zero => intro w; simp
  | succ t ih =>
      intro w
      rw [Function.iterate_succ_apply']
      show (exchangeBidirStep^[t] (⟨f, f⟩ : RingState W α)).toRight (w - 1) = _
      rw [ih]
      congr 1
      push_cast
      ring

lemma exchangeUnidirStep_iterate {W : ℕ} {α : Type} (f : ZMod W → α) :
    ∀ (t : ℕ) (w : ZMod W),
      (exchangeUnidirStep^[t] f) w = f (w - (t : ZMod W)) := by
  intro t
  induction t with
  | zero => intro w; simp
  | succ t ih =>
      intro w
      rw [Function.iterate_succ_apply']
      show (exchangeUnidirStep^[t] f) (w - 1) = _
      rw [ih]
      congr 1
      push_cast
      ring

lemma bidirRecvRounds_closed {W : ℕ} {α : Type} (f : ZMod W → α)
    (r : ZMod W) :
    ∀ (n t : ℕ),
      bidirRecvRounds n (exchangeBidirStep^[t] (⟨f, f⟩ : RingState W α)) r =
        (List.range n).flatMap (fun i =>
          [f (r + ((t + i + 1 : ℕ) : ZMod W)),
           f (r - ((t + i + 1 : ℕ) : ZMod W))]) := by
  intro n
  induction n with
  | zero => intro t; rfl
  | succ n ih =>
      intro t
      show (exchangeBidirStep^[t] (⟨f, f⟩ : RingState W α)).toLeft (r + 1) ::
          (exchangeBidirStep^[t] (⟨f, f⟩ : RingState W α)).toRight (r - 1) ::
          bidirRecvRounds n
            (exchangeBidirStep (exchangeBidirStep^[t] (⟨f, f⟩ : RingState W α))) r = _
      rw [show exchangeBidirStep (exchangeBidirStep^[t] (⟨f, f⟩ : RingState W α)) =
          exchangeBidirStep^[t + 1] (⟨f, f⟩ : RingState W α) from
          (Function.iterate_succ_apply' exchangeBidirStep t ⟨f, f⟩).symm,
        ih (t + 1),
        exchangeBidirStep_iterate_toLeft, exchangeBidirStep_iterate_toRight,
        List.range_succ_eq_map, List.flatMap_cons, List.flatMap_map]
      have h1 : (r + 1) + (t : ZMod W) = r + ((t + 0 + 1 : ℕ) : ZMod W) := by
        push_cast; ring
      have h2 : (r - 1) - (t : ZMod W) = r - ((t + 0 + 1 : ℕ) : ZMod W) := by
        push_cast; ring
      have h3 : (List.range n).flatMap (fun i =>
            [f (r + ((t + 1 + i + 1 : ℕ) : ZMod W)),
             f (r - ((t + 1 + i + 1 : ℕ) : ZMod W))]) =
          (List.range n).flatMap (fun i =>
            [f (r + ((t + Nat.succ i + 1 : ℕ) : ZMod W)),
             f (r - ((t + Nat.succ i + 1 : ℕ) : ZMod W))]) := by
        congr 1
        funext i
        rw [show t + 1 + i + 1 = t + Nat.succ i + 1 from by omega]
      rw [h1, h2, h3]
      rfl

lemma unidirRecvRounds_closed {W : ℕ} {α : Type} (f : ZMod W → α)
    (r : ZMod W) :
    ∀ (n t : ℕ),
      unidirRecvRounds n (exchangeUnidirStep^[t] f) r =
        (List.range n).map (fun i => f (r - ((t + i + 1 : ℕ) : ZMod W))) := by
  intro n
  induction n with
  | zero => intro t; rfl
  | succ n ih =>
      intro t
      show (exchangeUnidirStep^[t] f) (r - 1) ::
          unidirRecvRounds n (exchangeUnidirStep (exchangeUnidirStep^[t] f)) r = _
      rw [show exchangeUnidirStep (exchangeUnidirStep^[t] f) =
          exchangeUnidirStep^[t + 1] f from
          (Function.iterate_succ_apply' exchangeUnidirStep t f).symm,
        ih (t + 1),
        exchangeUnidirStep_iterate, List.range_succ_eq_map, List.map_cons,
        List.map_map]
      have h1 : (r - 1) - (t : ZMod W) = r - ((t + 0 + 1 : ℕ) : ZMod W) := by
        push_cast; ring
      have h2 : (List.range n).map (fun i =>
            f (r - ((t + 1 + i + 1 : ℕ) : ZMod W))) =
          (List.range n).map ((fun i => f (r - ((t + i + 1 : ℕ) : ZMod W))) ∘
            Nat.succ) := by
        apply List.map_congr_left
        intro i _
        simp only [Function.comp_apply]
        rw [show t + 1 + i + 1 = t + Nat.succ i + 1 from by omega]
      rw [h1, h2]

lemma sigLipNegRecv_bidir_closed {W : ℕ} {α : Type} (f : ZMod W → α)
    (r : ZMod W) :
    sigLipNegRecv W true f r =
      (List.range ((W - 1) / 2)).flatMap (fun i =>
        [f (r + ((i + 1 : ℕ) : ZMod W)), f (r - ((i + 1 : ℕ) : ZMod W))]) ++
      (if (W - 1) % 2 ≠ 0 then
        [f (r - (((W - 1) / 2 + 1 : ℕ) : ZMod W))] else []) := by
  unfold sigLipNegRecv sigLipNumBidir sigLipRemainder
  rw [if_pos rfl]
  congr 1
  · have h0 : bidirRecvRounds ((W - 1) / 2) (⟨f, f⟩ : RingState W α) r =
        bidirRecvRounds ((W - 1) / 2)
          (exchangeBidirStep^[0] (⟨f, f⟩ : RingState W α)) r := rfl
    rw [h0, bidirRecvRounds_closed]
    congr 1
    funext i
    rw [show 0 + i + 1 = i + 1 from by omega]
  · by_cases hrem : (W - 1) % 2 ≠ 0
    · rw [if_pos hrem, if_pos hrem, exchangeBidirStep_iterate_toRight]
      have : (r - 1) - (((W - 1) / 2 : ℕ) : ZMod W) =
          r - (((W - 1) / 2 + 1 : ℕ) : ZMod W) := by
        push_cast; ring
      rw [this]
    · rw [if_neg hrem, if_neg hrem]

lemma sigLipNegRecv_unidir_closed {W : ℕ} {α : Type} (f : ZMod W → α)
    (r : ZMod W) :
    sigLipNegRecv W false f r =
      (List.range (W - 1)).map (fun i => f (r - ((i + 1 : ℕ) : ZMod W))) := by
  unfold sigLipNegRecv
  rw [if_neg (by simp)]
  have h0 : unidirRecvRounds (W - 1) f r =
      unidirRecvRounds (W - 1) (exchangeUnidirStep^[0] f) r := rfl
  rw [h0, unidirRecvRounds_closed]
  apply List.map_congr_left
  intro i _
  rw [show 0 + i + 1 = i + 1 from by omega]

lemma sigLipNegRecv_natural {W : ℕ} {α : Type} (b : Bool) (f : ZMod W → α)
    (r : ZMod W) :
    sigLipNegRecv W b f r = (sigLipNegSenders W b r).map f := by
  unfold sigLipNegSenders
  cases b with
  | true =>
      rw [sigLipNegRecv_bidir_closed f r, sigLipNegRecv_bidir_closed id r,
        List.map_append, List.map_flatMap]
      congr 1
      by_cases hrem : (W - 1) % 2 ≠ 0
      · rw [if_pos hrem, if_pos hrem]
        rfl
      · rw [if_neg hrem, if_neg hrem]
        rfl
  | false =>
      rw [sigLipNegRecv_unidir_closed f r, sigLipNegRecv_unidir_closed id r,
        List.map_map]
      rfl

lemma cast_W_sub (W c : ℕ) (hc : c ≤ W) :
    ((W - c : ℕ) : ZMod W) = -(c : ZMod W) := by
  rw [Nat.cast_sub hc, ZMod.natCast_self, zero_sub]

lemma sigLipNegSenders_bidir_offsets (W : ℕ) (hW : 2 ≤ W) (r : ZMod W) :
    sigLipNegSenders W true r =
      (natOffsetsBidir W).map (fun k : ℕ => r + (k : ZMod W)) := by
  unfold sigLipNegSenders natOffsetsBidir
  rw [sigLipNegRecv_bidir_closed id r, List.map_append, List.map_flatMap]
  congr 1
  · rw [List.flatMap_def, List.flatMap_def]
    congr 1
    apply List.map_congr_left
    intro i hi
    rw [List.mem_range] at hi
    have hle : i + 1 ≤ W := by omega
    simp only [List.map_cons, List.map_nil, id]
    rw [cast_W_sub W (i + 1) hle, sub_eq_add_neg]
  · by_cases hrem : (W - 1) % 2 ≠ 0
    · rw [if_pos hrem, if_pos hrem]
      have hle : (W - 1) / 2 + 1 ≤ W := by omega
      simp only [List.map_cons, List.map_nil, id]
      rw [cast_W_sub W ((W - 1) / 2 + 1) hle, sub_eq_add_neg]
    · rw [if_neg hrem, if_neg hrem]
      rfl

lemma sigLipNegSenders_unidir_offsets (W : ℕ) (hW : 2 ≤ W) (r : ZMod W) :
    sigLipNegSenders W false r =
      (natOffsetsUnidir W).map (fun k : ℕ => r + (k : ZMod W)) := by
  unfold sigLipNegSenders natOffsetsUnidir
  rw [sigLipNegRecv_unidir_closed id r, List.map_map]
  apply List.map_congr_left
  intro i hi
  rw [List.mem_range] at hi
  simp only [Function.comp_apply, id]
  rw [cast_W_sub W (i + 1) (by omega), sub_eq_add_neg]

lemma pairs_length (W : ℕ) :
    ∀ n, ((List.range n).flatMap (fun i => [i + 1, W - (i + 1)])).length =
      2 * n := by
  intro n
  induction n with
  | zero => rfl
  | succ n ih =>
      rw [List.range_succ, List.flatMap_append, List.length_append, ih]
      simp
      omega

lemma pairs_mem (W n x : ℕ) :
    x ∈ (List.range n).flatMap (fun i => [i + 1, W - (i + 1)]) ↔
      ∃ i, i < n ∧ (x = i + 1 ∨ x = W - (i + 1)) := by
  simp [List.mem_flatMap, List.mem_range]

lemma pairs_nodup (W : ℕ) (hW : 2 ≤ W) :
    ∀ n, 2 * n ≤ W - 1 →
      ((List.range n).flatMap (fun i => [i + 1, W - (i + 1)])).Nodup := by
  intro n
  induction n with
  | zero => intro _; simp
  | succ n ih =>
      intro h
      rw [List.range_succ, List.flatMap_append]
      apply List.Nodup.append
      · exact ih (by omega)
      · simp
        omega
      · intro x hx hx2
        rw [pairs_mem] at hx
        simp at hx2
        rcases hx with ⟨i, hi, hxi⟩
        rcases hxi with h1 | h2 <;> rcases hx2 with h3 | h4 <;> omega

lemma natOffsetsBidir_spec (W : ℕ) (hW : 2 ≤ W) :
    (∀ x ∈ natOffsetsBidir W, 1 ≤ x ∧ x < W) ∧ (natOffsetsBidir W).Nodup ∧
      (natOffsetsBidir W).length = W - 1 := by
  have hdm : 2 * ((W - 1) / 2) + (W - 1) % 2 = W - 1 := by omega
  have h2nb : 2 * ((W - 1) / 2) ≤ W - 1 := by omega
  unfold natOffsetsBidir
  refine ⟨?_, ?_, ?_⟩
  · intro x hx
    rw [List.mem_append] at hx
    rcases hx with hx | hx
    · rw [pairs_mem] at hx
      rcases hx with ⟨i, hi, hxi⟩
      rcases hxi with h1 | h2 <;> omega
    · by_cases hrem : (W - 1) % 2 ≠ 0
      · rw [if_pos hrem] at hx
        simp at hx
        omega
      · rw [if_neg hrem] at hx
        simp at hx
  · apply List.Nodup.append
    · exact pairs_nodup W hW _ h2nb
    · by_cases hrem : (W - 1) % 2 ≠ 0
      · rw [if_pos hrem]; simp
      · rw [if_neg hrem]; simp
    · intro x hx hx2
      rw [pairs_mem] at hx
      by_cases hrem : (W - 1) % 2 ≠ 0
      · rw [if_pos hrem] at hx2
        simp at hx2
        rcases hx with ⟨i, hi, hxi⟩
        rcases hxi with h1 | h2 <;> omega
      · rw [if_neg hrem] at hx2
        simp at hx2
  · rw [List.length_append, pairs_length]
    by_cases hrem : (W - 1) % 2 ≠ 0
    · rw [if_pos hrem]
      simp
      omega
    · rw [if_neg hrem]
      simp
      omega

lemma natOffsetsUnidir_spec (W : ℕ) (hW : 2 ≤ W) :
    (∀ x ∈ natOffsetsUnidir W, 1 ≤ x ∧ x < W) ∧ (natOffsetsUnidir W).Nodup ∧
      (natOffsetsUnidir W).length = W - 1 := by
  unfold natOffsetsUnidir
  refine ⟨?_, ?_, ?_⟩
  · intro x hx
    rw [List.mem_map] at hx
    rcases hx with ⟨i, hi, hxi⟩
    rw [List.mem_range] at hi
    omega
  · apply List.Nodup.map_on
    · intro x hx y hy hxy
      rw [List.mem_range] at hx hy
      omega
    · exact List.nodup_range (W - 1)
  · simp

lemma offsets_cover (W : ℕ) (hW : 2 ≤ W) (r : ZMod W) (nl : List ℕ)
    (hb : ∀ x ∈ nl, 1 ≤ x ∧ x < W) (hnd : nl.Nodup)
    (hlen : nl.length = W - 1) :
    (nl.map (fun k : ℕ => r + (k : ZMod W))).Nodup ∧
      ∀ w : ZMod W, w ∈ nl.map (fun k : ℕ => r + (k : ZMod W)) ↔ w ≠ r := by
  haveI : NeZero W := ⟨by omega⟩
  have hinj : ∀ x ∈ nl, ∀ y ∈ nl,
      r + (x : ZMod W) = r + (y : ZMod W) → x = y := by
    intro x hx y hy hxy
    have hcast : (x : ZMod W) = (y : ZMod W) := by
      exact add_left_cancel hxy
    have := congrArg ZMod.val hcast
    rwa [ZMod.val_cast_of_lt (hb x hx).2, ZMod.val_cast_of_lt (hb y hy).2]
      at this
  have hnodup : (nl.map (fun k : ℕ => r + (k : ZMod W))).Nodup :=
    hnd.map_on hinj
  have hne : ∀ w ∈ nl.map (fun k : ℕ => r + (k : ZMod W)), w ≠ r := by
    intro w hw
    rcases List.mem_map.mp hw with ⟨k, hk, hkw⟩
    intro hwr
    rw [← hkw] at hwr
    have hk0 : (k : ZMod W) = 0 := by
      have := hwr
      calc (k : ZMod W) = (r + k) - r := by ring
        _ = r - r := by rw [this]
        _ = 0 := by ring
    have hval := congrArg ZMod.val hk0
    rw [ZMod.val_cast_of_lt (hb k hk).2, ZMod.val_zero] at hval
    have hk1 : 1 ≤ k := (hb k hk).1
    omega
  refine ⟨hnodup, fun w => ⟨fun hw => hne w hw, fun hw => ?_⟩⟩
  have hsub : (nl.map (fun k : ℕ => r + (k : ZMod W))).toFinset ⊆
      Finset.univ.erase r := by
    intro w hw
    rw [List.mem_toFinset] at hw
    exact Finset.mem_erase.mpr ⟨hne w hw, Finset.mem_univ w⟩
  have hcard1 : (nl.map (fun k : ℕ => r + (k : ZMod W))).toFinset.card = W - 1 := by
    rw [List.toFinset_card_of_nodup hnodup, List.length_map, hlen]
  have hcard2 : (Finset.univ.erase r).card = W - 1 := by
    rw [Finset.card_erase_of_mem (Finset.mem_univ r), Finset.card_univ,
      ZMod.card]
  have heq : (nl.map (fun k : ℕ => r + (k : ZMod W))).toFinset =
      Finset.univ.erase r :=
    Finset.eq_of_subset_of_card_le hsub (by omega)
  have hwmem : w ∈ Finset.univ.erase r :=
    Finset.mem_erase.mpr ⟨hw, Finset.mem_univ w⟩
  rw [← heq, List.mem_toFinset] at hwmem
  exact hwmem

/-- C1: across all exchange rounds of the sigmoid-loss forward pass run
simultaneously by all W workers, the right-side feature blocks against
which worker `r` evaluates negative-only loss terms are exactly the blocks
of every other worker — the received list is the sender list mapped
through the block assignment `f`, the sender list has no repeats, and its
members are exactly the workers other than `r` (so `r`'s own block appears
only in the local positive round) — in both bidirectional and
unidirectional modes. -/
theorem siglip_ring_negative_coverage {α : Type} (W : ℕ) (hW : 2 ≤ W)
    (b : Bool) (r : ZMod W) (f : ZMod W → α) :
    sigLipNegRecv W b f r = (sigLipNegSenders W b r).map f
    ∧ (sigLipNegSenders W b r).Nodup
    ∧ ∀ w : ZMod W, w ∈ sigLipNegSenders W b r ↔ w ≠ r := by
  refine ⟨sigLipNegRecv_natural b f r, ?_⟩
  cases b with
  | true =>
      rw [sigLipNegSenders_bidir_offsets W hW r]
      rcases natOffsetsBidir_spec W hW with ⟨hb, hnd, hlen⟩
      exact offsets_cover W hW r _ hb hnd hlen
  | false =>
      rw [sigLipNegSenders_unidir_offsets W hW r]
      rcases natOffsetsUnidir_spec W hW with ⟨hb, hnd, hlen⟩
      exact offsets_cover W hW r _ hb hnd hlen

theorem siglip_ring_negative_coverage_witness :
    (2 : ℕ) ≤ 3 ∧
    (sigLipNegRecv 3 true ZMod.val 1 = (sigLipNegSenders 3 true 1).map ZMod.val
    ∧ (sigLipNegSenders 3 true 1).Nodup
    ∧ ∀ w : ZMod 3, w ∈ sigLipNegSenders 3 true 1 ↔ w ≠ 1) :=
  ⟨by decide, siglip_ring_negative_coverage 3 (by decide) true 1 ZMod.val⟩

lemma bidirRecvRounds_length {W : ℕ} {α : Type} :
    ∀ (n : ℕ) (s : RingState W α) (r : ZMod W),
      (bidirRecvRounds n s r).length = 2 * n := by
  intro n
  induction n with
  | zero => intro s r; rfl
  | succ n ih =>
      intro s r
      show (bidirRecvRounds n (exchangeBidirStep s) r).length + 1 + 1 = _
      rw [ih]
      omega

lemma unidirRecvRounds_length {W : ℕ} {α : Type} :
    ∀ (n : ℕ) (s : ZMod W → α) (r : ZMod W),
      (unidirRecvRounds n s r).length = n := by
  intro n
  induction n with
  | zero => intro s r; rfl
  | succ n ih =>
      intro s r
      show (unidirRecvRounds n (exchangeUnidirStep s) r).length + 1 = _
      rw [ih]

/-- C8 counterexample: the claim says bidirectional mode performs
`ceil((W-1)/2)` two-sided exchange rounds; the source computes
`num_bidir, remainder = divmod(world_size - 1, 2)`, the floor.  At
W = 4 the claim demands `ceil(3/2) = 2` two-sided rounds (here computed as
`(4 - 1 + 2 - 1) / 2` in natural division), while the code performs 1. -/
theorem siglip_bidir_round_count_cex :
    sigLipNumBidir 4 = 1 ∧ (4 - 1 + 2 - 1) / 2 = 2 ∧
    sigLipNumBidir 4 ≠ (4 - 1 + 2 - 1) / 2 := by
  refine ⟨rfl, rfl, ?_⟩
  decide

/-- C8 amended: the forward pass accumulates one negative-only term per
received tensor, W - 1 in total, in both modes; bidirectional mode runs
`floor((W-1)/2)` two-sided rounds (two received tensors each) plus one
single-sided round exactly when W - 1 is odd, and unidirectional mode runs
W - 1 single-sided rounds. -/
theorem siglip_round_counts {α : Type} (W : ℕ) (hW : 2 ≤ W)
    (f : ZMod W → α) (r : ZMod W) (b : Bool) :
    (sigLipNegRecv W b f r).length = W - 1
    ∧ (bidirRecvRounds (sigLipNumBidir W) (⟨f, f⟩ : RingState W α) r).length =
        2 * sigLipNumBidir W
    ∧ 2 * sigLipNumBidir W + sigLipRemainder W = W - 1
    ∧ (sigLipRemainder W = 1 ↔ ¬ 2 ∣ (W - 1))
    ∧ (sigLipNegRecv W false f r).length = W - 1 := by
  have hlen : ∀ b2 : Bool, (sigLipNegRecv W b2 f r).length = W - 1 := by
    intro b2
    cases b2 with
    | true =>
        unfold sigLipNegRecv
        rw [if_pos rfl, List.length_append, bidirRecvRounds_length]
        unfold sigLipNumBidir sigLipRemainder
        by_cases hrem : (W - 1) % 2 ≠ 0
        · rw [if_pos hrem]
          simp
          omega
        · rw [if_neg hrem]
          simp
          omega
    | false =>
        unfold sigLipNegRecv
        rw [if_neg (by simp), unidirRecvRounds_length]
  refine ⟨hlen b, bidirRecvRounds_length _ _ _, ?_, ?_, hlen false⟩
  · unfold sigLipNumBidir sigLipRemainder
    omega
  · unfold sigLipRemainder
    omega

theorem siglip_round_counts_witness :
    (2 : ℕ) ≤ 4 ∧
    ((sigLipNegRecv 4 true id (0 : ZMod 4)).length = 4 - 1
    ∧ (bidirRecvRounds (sigLipNumBidir 4) (⟨id, id⟩ : RingState 4 (ZMod 4))
        (0 : ZMod 4)).length = 2 * sigLipNumBidir 4
    ∧ 2 * sigLipNumBidir 4 + sigLipRemainder 4 = 4 - 1
    ∧ (sigLipRemainder 4 = 1 ↔ ¬ 2 ∣ (4 - 1))
    ∧ (sigLipNegRecv 4 false id (0 : ZMod 4)).length = 4 - 1) :=
  ⟨by decide, siglip_round_counts 4 (by decide) id 0 true⟩

end OpenClip
